import Mathlib

/-!
Verification of the variant-resolution-and-caching engine in `src/lib/cn.ts`
(`native-variants`).

JavaScript objects are modelled as association lists (`List (String × α)`)
whose entry order is the object's key insertion order; `getKey` is property
lookup, `setKey` is property assignment (replace in place, else append), and
`spread` is the object-spread merge `\x7b ...a, ...b \x7d`.  A variant
selection value is `Option SVal`, where `none` stands for the JavaScript
`undefined`; a whole props argument is `Option Selection`, where `none` is a
call with no argument.  The mutable per-resolver cache is modelled as explicit
state (`CacheState`); every freshly computed Resolved Style Set receives a
fresh allocation stamp (`Nat`), so two calls return the identical object
instance exactly when their stamps agree.
-/

namespace NV

/-- A primitive style / variant value: string, (integer) number, or boolean.
Mirrors the value space the engine's claims exercise. -/
inductive SVal where
  | str : String → SVal
  | num : Int → SVal
  | bool : Bool → SVal
deriving DecidableEq

/-- A Style Mapping: property name to primitive value, in insertion order. -/
abbrev Styles := List (String × SVal)

/-- Slot name to Style Mapping. -/
abbrev SlotMap := List (String × Styles)

/-- A variant selection object: variant name to value, `none` modelling an
explicitly `undefined` property. -/
abbrev Selection := List (String × Option SVal)

/-- The variant table: variant name → variant value key → slot → styles.
A variant name mapped to the explicit `undefined` never survives the
source's `if (!variantConfig) continue` guard, so it is not represented. -/
abbrev VariantsTable := List (String × List (String × SlotMap))

/-- A util table: util name to expansion function, `(value) -> Styles`. -/
abbrev UtilsTable := List (String × (SVal → Styles))

instance : DecidableEq Styles := inferInstance

instance : DecidableEq SlotMap := inferInstance

instance : DecidableEq Selection := inferInstance

instance : DecidableEq VariantsTable := inferInstance

/-- One compound-variant rule of `compoundVariants`: the condition keys
(everything except `css`, in declaration order) and the optional `css` patch. -/
structure Compound where
  conds : Selection
  css : Option SlotMap
deriving DecidableEq

/-- JavaScript property read `l[k]`: the value at the first (only) entry
with key `k`, or `none` when the key is absent. -/
def getKey (l : List (String × α)) (k : String) : Option α :=
  (l.find? (fun p => p.1 == k)).map (·.2)

/-- JavaScript property write `l[k] = v`: replace the existing entry in
place, else append a new entry. -/
def setKey : List (String × α) → String → α → List (String × α)
  | [], k, v => [(k, v)]
  | p :: ps, k, v => if p.1 == k then (k, v) :: ps else p :: setKey ps k v

/-- Object spread `\x7b ...a, ...b \x7d` (also `Object.assign(a, b)`):
copy every entry of `b` over `a`, later keys winning. -/
def spread (a b : List (String × α)) : List (String × α) :=
  b.foldl (fun acc p => setKey acc p.1 p.2) a

/-- The loop `for (x of l) result[keyOf x] = valOf x` over a fresh object. -/
def buildMap (keyOf : α → String) (valOf : α → β) (l : List α) :
    List (String × β) :=
  l.foldl (fun acc x => setKey acc (keyOf x) (valOf x)) []

/-- JavaScript `String(v)` on a primitive value. -/
def jsString : SVal → String
  | .str s => s
  | .num n => toString n
  | .bool b => if b then "true" else "false"

/-- `normalizeVariantValue` (cn.ts:384): booleans become the strings
`"true"` / `"false"`, everything else goes through `String(value)`; in
particular the absent / `undefined` case stringifies to `"undefined"`. -/
def normalizeVariantValue : Option SVal → String
  | some (.bool b) => if b then "true" else "false"
  | some v => jsString v
  | none => "undefined"

/-- Lexicographic code-unit comparison on character lists, as JavaScript's
default `sort()` comparator orders strings. -/
def charsLe : List Char → List Char → Bool
  | [], _ => true
  | _ :: _, [] => false
  | c :: cs, d :: ds =>
    if c.toNat < d.toNat then true
    else if d.toNat < c.toNat then false
    else charsLe cs ds

/-- String comparison by code units. -/
def strLe (a b : String) : Bool := charsLe a.data b.data

/-- Insert a string into a sorted list, keeping it sorted. -/
def insertSorted (k : String) : List String → List String
  | [] => [k]
  | x :: xs => if strLe k x then k :: x :: xs else x :: insertSorted k xs

/-- `keys.sort()`: the keys in lexicographic order. -/
def sortStrings (l : List String) : List String :=
  l.foldr insertSorted []

/-- `createCacheKey` (cn.ts:356): `"\x7b\x7d"` for a missing or empty props
object, otherwise the sorted own keys joined as `key:String(value);` pairs,
entries with `undefined` values skipped, and the empty join falling back to
`"\x7b\x7d"`. -/
def createCacheKey (props : Option Selection) : String :=
  match props with
  | none => "\x7b\x7d"
  | some ps =>
    let sortedKeys := sortStrings (ps.map (·.1))
    let key := sortedKeys.foldl (fun acc k =>
      match (getKey ps k).join with
      | some v => acc ++ k ++ ":" ++ jsString v ++ ";"
      | none => acc) ""
    if key = "" then "\x7b\x7d" else key

/-- `applyVariant` (cn.ts:403): fold the variant table in declaration order;
for every variant name that is a present, non-`undefined` own key of `props`,
look up the slot's styles under the normalized value key and spread them
over the accumulator. -/
def applyVariant (slot : String) (variants : VariantsTable)
    (props : Selection) : Styles :=
  variants.foldl (fun style vp =>
    match getKey props vp.1 with
    | some (some value) =>
      match (getKey vp.2 (normalizeVariantValue (some value))).bind
          (fun slots => getKey slots slot) with
      | some styleForValue => spread style styleForValue
      | none => style
    | _ => style) []

/-- The condition loop of `applyCompound` (cn.ts:456): a rule matches when
every condition key's normalized value equals the normalization of the
(possibly absent, hence `undefined`) props value at that key. -/
def compoundMatches (conds : Selection) (props : Selection) : Bool :=
  conds.all (fun c =>
    normalizeVariantValue c.2 == normalizeVariantValue ((getKey props c.1).join))

/-- `applyCompound` (cn.ts:443): fold the rules in array order, spreading
each matching rule's `css[slot]` patch over the accumulator. -/
def applyCompound (slot : String) (compoundVariants : List Compound)
    (props : Selection) : Styles :=
  compoundVariants.foldl (fun style cv =>
    if compoundMatches cv.conds props then
      match cv.css.bind (fun m => getKey m slot) with
      | some patch => spread style patch
      | none => style
    else style) []

/-- `computeSlotStyles` (cn.ts:493): the three-way spread
`\x7b ...base[slot], ...variantStyle, ...compoundStyle \x7d`. -/
def computeSlotStyles (slot : String) (base : SlotMap)
    (variants : VariantsTable) (compoundVariants : List Compound)
    (props : Selection) : Styles :=
  let baseStyle := (getKey base slot).getD []
  let variantStyle := applyVariant slot variants props
  let compoundStyle := applyCompound slot compoundVariants props
  spread (spread baseStyle variantStyle) compoundStyle

/-- A declared configuration after destructuring with defaults
(cn.ts:547-553): absent `base` / `variants` / `defaultVariants` /
`compoundVariants` become empty. -/
structure NVAConfig where
  slots : List String
  base : SlotMap := []
  variants : VariantsTable := []
  defaultVariants : Selection := []
  compoundVariants : List Compound := []
deriving DecidableEq

/-- The `resolvedProps` computation (cn.ts:573-582): start from a copy of
`defaultVariants`, then overwrite with every props key whose value is not
`undefined`. -/
def resolveProps (defaultVariants : Selection) (props : Option Selection) :
    Selection :=
  match props with
  | none => defaultVariants
  | some ps => ps.foldl (fun acc kv =>
      match kv.2 with
      | some v => setKey acc kv.1 (some v)
      | none => acc) defaultVariants

/-- The per-slot result loop (cn.ts:585-596): `result[slot] =
computeSlotStyles(...)` for every declared slot. -/
def computeAll (cfg : NVAConfig) (resolvedProps : Selection) : SlotMap :=
  buildMap id
    (fun slot => computeSlotStyles slot cfg.base cfg.variants
      cfg.compoundVariants resolvedProps)
    cfg.slots

/-- The per-resolver cache partition plus an allocation counter: each entry
stores the stamp of the result object it holds, and `next` is the stamp the
next freshly computed result will receive. -/
structure CacheState where
  cache : List (String × Nat × SlotMap)
  next : Nat
deriving DecidableEq

/-- The cache partition a freshly declared resolver starts from. -/
def CacheState.empty : CacheState := ⟨[], 0⟩

/-- The resolver `computeStyles` returned by the plain top-level `styled`
(cn.ts:562-606): build the cache key from the raw props, return the cached
entry on a hit, otherwise resolve the props against the defaults, compute
every slot, and store the freshly stamped result. -/
def computeStyles (cfg : NVAConfig) (st : CacheState)
    (props : Option Selection) : (Nat × SlotMap) × CacheState :=
  let cacheKey := createCacheKey props
  match getKey st.cache cacheKey with
  | some entry => (entry, st)
  | none =>
    let resolvedProps := resolveProps cfg.defaultVariants props
    let result := computeAll cfg resolvedProps
    ((st.next, result), ⟨setKey st.cache cacheKey (st.next, result), st.next + 1⟩)

/-- `expandUtils` (cn.ts:682): for every key of the style object, a key
naming a util is replaced by `Object.assign(result, utilFn(value))`, any
other key is copied unchanged; a missing style object expands to empty. -/
def expandUtils (style : Option Styles) (utils : UtilsTable) : Styles :=
  match style with
  | none => []
  | some st => st.foldl (fun result kv =>
      match getKey utils kv.1 with
      | some utilFn => spread result (utilFn kv.2)
      | none => setKey result kv.1 kv.2) []

/-- `expandBaseUtils` (cn.ts:714): expand every slot's styles. -/
def expandBaseUtils (base : Option SlotMap) (utils : UtilsTable) : SlotMap :=
  match base with
  | none => []
  | some b => buildMap (·.1) (fun sp => expandUtils (some sp.2) utils) b

/-- `expandVariantsUtils` (cn.ts:736): expand every leaf of the variant
table, rebuilding the nested structure. -/
def expandVariantsUtils (variants : Option VariantsTable)
    (utils : UtilsTable) : VariantsTable :=
  match variants with
  | none => []
  | some vs => buildMap (·.1)
      (fun vp => buildMap (·.1)
        (fun valp => buildMap (·.1)
          (fun sp => expandUtils (some sp.2) utils) valp.2)
        vp.2)
      vs

/-- `expandCompoundUtils` (cn.ts:775): keep each rule's conditions and
replace its `css` by the per-slot expansion of the old `css` (an absent
`css` becomes the empty patch object). -/
def expandCompoundUtils (compoundVariants : Option (List Compound))
    (utils : UtilsTable) : List Compound :=
  match compoundVariants with
  | none => []
  | some cvs => cvs.map (fun cv =>
      { conds := cv.conds
        css := some (match cv.css with
          | none => []
          | some m => buildMap (·.1) (fun sp => expandUtils (some sp.2) utils) m) })

/-- The declaration-time pass of `createNVA(...).styled` (cn.ts:998-1013):
the config whose base, variant leaves and compound patches have been expanded
through the instance's util table, exactly once. -/
def nvaStyledConfig (utils : UtilsTable) (cfg : NVAConfig) : NVAConfig :=
  { slots := cfg.slots
    base := expandBaseUtils (some cfg.base) utils
    variants := expandVariantsUtils (some cfg.variants) utils
    defaultVariants := cfg.defaultVariants
    compoundVariants := expandCompoundUtils (some cfg.compoundVariants) utils }

/-- The resolver returned by `createNVA(...).styled` (cn.ts:980-1066):
utils are expanded once at declaration time, and the returned
`computeStyles` closure (cn.ts:1018-1065) runs the same key / cache /
resolve / compute-per-slot pipeline over the expanded pieces. -/
def nvaStyled (utils : UtilsTable) (cfg : NVAConfig) :
    CacheState → Option Selection → (Nat × SlotMap) × CacheState :=
  let base := expandBaseUtils (some cfg.base) utils
  let variants := expandVariantsUtils (some cfg.variants) utils
  let compoundVariants := expandCompoundUtils (some cfg.compoundVariants) utils
  fun st props =>
    let cacheKey := createCacheKey props
    match getKey st.cache cacheKey with
    | some entry => (entry, st)
    | none =>
      let resolvedProps := resolveProps cfg.defaultVariants props
      let result := buildMap id
        (fun slot => computeSlotStyles slot base variants compoundVariants
          resolvedProps)
        cfg.slots
      ((st.next, result), ⟨setKey st.cache cacheKey (st.next, result), st.next + 1⟩)

/-- First-defined-wins fallback on optional lookups, used to state merge
precedence: the first operand shadows the second. -/
def orFallback (a b : Option α) : Option α :=
  match a with
  | some v => some v
  | none => b

/-- Every key of a style object is foreign to the util table. -/
def cleanStyles (utils : UtilsTable) (st : Styles) : Prop :=
  ∀ k ∈ st.map Prod.fst, (getKey utils k).isNone = true

/-- Every util's output, on every value, contains no util-named keys
(utils may shadow real style properties but never re-emit a util name). -/
def cleanUtils (utils : UtilsTable) : Prop :=
  ∀ p ∈ utils, ∀ v : SVal, cleanStyles utils (p.2 v)

/-- The contribution a single variant-table entry makes to a slot for the
given props: the styles the `applyVariant` loop body would spread, `none`
when the loop body skips the entry. -/
def variantContribution (slot : String) (props : Selection)
    (vp : String × List (String × SlotMap)) : Option Styles :=
  match getKey props vp.1 with
  | some (some value) =>
    (getKey vp.2 (normalizeVariantValue (some value))).bind
      (fun slots => getKey slots slot)
  | _ => none

/-- The contribution a single compound rule makes to a slot for the given
props: its `css[slot]` patch when the rule matches, `none` otherwise. -/
def compoundContribution (slot : String) (props : Selection)
    (cv : Compound) : Option Styles :=
  if compoundMatches cv.conds props then cv.css.bind (fun m => getKey m slot)
  else none

/-- Fold a list of optional style contributions over an accumulator,
spreading each present contribution; the common shape of the
`applyVariant` and `applyCompound` loops. -/
def mergeContribs (f : α → Option Styles) (init : Styles) (l : List α) : Styles :=
  l.foldl (fun style x =>
    match f x with
    | some st => spread style st
    | none => style) init

/-- A well-formed declared style leaf relative to a util table: a genuine
JavaScript object (no duplicate keys) none of whose keys names a util. -/
def wfLeaf (utils : UtilsTable) (st : Styles) : Prop :=
  cleanStyles utils st ∧ (st.map Prod.fst).Nodup

/-- A well-formed util-free configuration: every style leaf of `base`,
of the variant table, and of every compound rule's `css` patch is a real
object mentioning no util name, and all the surrounding objects have
duplicate-free keys. -/
def wfConfig (utils : UtilsTable) (cfg : NVAConfig) : Prop :=
  ((cfg.base.map Prod.fst).Nodup ∧ ∀ sp ∈ cfg.base, wfLeaf utils sp.2) ∧
  ((cfg.variants.map Prod.fst).Nodup ∧
    ∀ vp ∈ cfg.variants, (vp.2.map Prod.fst).Nodup ∧
      ∀ valp ∈ vp.2, (valp.2.map Prod.fst).Nodup ∧
        ∀ sp ∈ valp.2, wfLeaf utils sp.2) ∧
  (∀ cv ∈ cfg.compoundVariants,
    (((cv.css.getD []).map Prod.fst).Nodup ∧
      ∀ sp ∈ cv.css.getD [], wfLeaf utils sp.2))

instance (utils : UtilsTable) (st : Styles) : Decidable (cleanStyles utils st) := by
  unfold cleanStyles
  infer_instance

instance (utils : UtilsTable) (st : Styles) : Decidable (wfLeaf utils st) := by
  unfold wfLeaf
  infer_instance

instance (utils : UtilsTable) (cfg : NVAConfig) : Decidable (wfConfig utils cfg) := by
  unfold wfConfig
  infer_instance

/-! ### Concrete configurations from the specification's scenarios -/

/-- The §8 scenario configuration: one `root` slot, `padding` base, a
`size` variant with `sm` / `lg` values and default `sm`. -/
def cfgScenario : NVAConfig :=
  { slots := ["root"]
    base := [("root", [("padding", .num 8)])]
    variants := [("size", [("sm", [("root", [("padding", .num 4)])]),
                           ("lg", [("root", [("padding", .num 16)])])])]
    defaultVariants := [("size", some (.str "sm"))] }

/-- A configuration with two string variants `a` / `b` and a default for
`a`, used to exhibit the cache-key separator collision. -/
def cfgCollide : NVAConfig :=
  { slots := ["root"]
    base := [("root", [("padding", .num 8)])]
    variants := [("a", [("x", [("root", [("color", .str "red")])])]),
                 ("b", [("y", [("root", [("margin", .num 1)])])])]
    defaultVariants := [("a", some (.str "x"))] }

/-- The selection `{ a: "x;b:y" }`, whose single value embeds the
`:` and `;` cache-key separator characters. -/
def selEmbed : Selection := [("a", some (.str "x;b:y"))]

/-- The selection `{ a: "x", b: "y" }`. -/
def selSplit : Selection := [("a", some (.str "x")), ("b", some (.str "y"))]

/-- The selection `{ b: "y" }`; under `cfgCollide`'s default it has
the same effective selection as `selSplit`. -/
def selPartB : Selection := [("b", some (.str "y"))]

/-- The §8 precedence configuration: base padding 8, variant `big = true`
padding 24, compound rule on `big: true` patching padding 32. -/
def cfgPrec : NVAConfig :=
  { slots := ["root"]
    base := [("root", [("padding", .num 8)])]
    variants := [("big", [("true", [("root", [("padding", .num 24)])])])]
    compoundVariants :=
      [⟨[("big", some (.bool true))], some [("root", [("padding", .num 32)])]⟩] }

/-- The util table `{ px: v => ({ paddingLeft: v, paddingRight: v }) }`. -/
def utilsPx : UtilsTable :=
  [("px", fun v => [("paddingLeft", v), ("paddingRight", v)])]

/-- A configuration whose base uses the `px` util shorthand. -/
def cfgPx : NVAConfig :=
  { slots := ["root"], base := [("root", [("px", .num 10)])] }

/-- A util that shadows the real style property `padding` and re-emits its
own name, as the specification's shadowing design permits. -/
def utilsShadow : UtilsTable := [("padding", fun v => [("padding", v)])]

/-- A configuration whose base uses the shadowed `padding` key. -/
def cfgShadow : NVAConfig :=
  { slots := ["root"], base := [("root", [("padding", .num 1)])] }

/-- A shadowing util whose expansion is not idempotent: `padding`
quadruples its numeric value and re-emits its own name. -/
def utilsScale : UtilsTable :=
  [("padding", fun v => [("padding", match v with | .num n => .num (n * 4) | x => x)])]

/-- A variant table declaring `disabled` only under the string keys
`"true"` / `"false"`. -/
def variantsDisabled : VariantsTable :=
  [("disabled", [("true", [("root", [("opacity", .num 1)])]),
                 ("false", [("root", [("opacity", .num 5)])])])]

/-- First call of the collision sequence: `resolve({ b: "y" })` on a
fresh resolver for `cfgCollide`. -/
def callOne : (Nat × SlotMap) × CacheState :=
  computeStyles cfgCollide CacheState.empty (some selPartB)

/-- Second call: `resolve({ a: "x;b:y" })` on the same resolver. -/
def callTwo : (Nat × SlotMap) × CacheState :=
  computeStyles cfgCollide callOne.2 (some selEmbed)

/-- Third call: `resolve({ a: "x", b: "y" })` on the same resolver. -/
def callThree : (Nat × SlotMap) × CacheState :=
  computeStyles cfgCollide callTwo.2 (some selSplit)

/-! ### Lemmas about the JavaScript-object primitives -/

theorem getKey_nil (k : String) : getKey ([] : List (String × α)) k = none := rfl

theorem getKey_cons (p : String × α) (l : List (String × α)) (k : String) :
    getKey (p :: l) k = if p.1 = k then some p.2 else getKey l k := by
  by_cases h : p.1 = k <;> simp [getKey, List.find?_cons, h]

theorem setKey_cons_of_eq {p : String × α} (ps : List (String × α)) {k : String}
    (v : α) (h : p.1 = k) : setKey (p :: ps) k v = (k, v) :: ps := by
  simp [setKey, h]

theorem setKey_cons_of_ne {p : String × α} (ps : List (String × α)) {k : String}
    (v : α) (h : ¬p.1 = k) : setKey (p :: ps) k v = p :: setKey ps k v := by
  simp [setKey, h]

theorem getKey_eq_none_iff (l : List (String × α)) (k : String) :
    getKey l k = none ↔ k ∉ l.map Prod.fst := by
  induction l with
  | nil => simp [getKey_nil]
  | cons p ps ih =>
    rw [getKey_cons]
    by_cases h : p.1 = k
    · simp [h]
    · simp only [if_neg h, ih, List.map_cons, List.mem_cons]
      constructor
      · rintro hn (hk | hk)
        · exact h hk.symm
        · exact hn hk
      · intro hn hk
        exact hn (Or.inr hk)

theorem getKey_mem {l : List (String × α)} {k : String} {v : α}
    (h : getKey l k = some v) : (k, v) ∈ l := by
  induction l with
  | nil => simp [getKey_nil] at h
  | cons p ps ih =>
    rw [getKey_cons] at h
    by_cases hk : p.1 = k
    · rw [if_pos hk] at h
      exact List.mem_cons.mpr (Or.inl (by
        obtain ⟨p1, p2⟩ := p
        simp only at hk
        simp [← hk, ← Option.some.inj h]))
    · rw [if_neg hk] at h
      exact List.mem_cons_of_mem _ (ih h)

theorem getKey_setKey (l : List (String × α)) (k k' : String) (v : α) :
    getKey (setKey l k v) k' = if k' = k then some v else getKey l k' := by
  induction l with
  | nil =>
    show getKey [(k, v)] k' = _
    rw [getKey_cons, getKey_nil]
    by_cases h : k' = k
    · simp [h]
    · rw [if_neg (fun hh : k = k' => h hh.symm), if_neg h]
  | cons p ps ih =>
    by_cases hp : p.1 = k
    · rw [setKey_cons_of_eq ps v hp, getKey_cons, getKey_cons]
      by_cases h : k' = k
      · simp [h]
      · rw [if_neg (fun hh : (k, v).1 = k' => h hh.symm), if_neg h,
          if_neg (fun hh : p.1 = k' => h (hp ▸ hh).symm)]
    · rw [setKey_cons_of_ne ps v hp, getKey_cons, getKey_cons, ih]
      by_cases h : k' = k
      · rw [if_pos h, if_neg (fun hh : p.1 = k' => hp (h ▸ hh)), if_pos h]
      · rw [if_neg h, if_neg h]

theorem mem_keys_setKey {l : List (String × α)} {k k' : String} {v : α}
    (h : k' ∈ (setKey l k v).map Prod.fst) :
    k' ∈ l.map Prod.fst ∨ k' = k := by
  induction l with
  | nil => simp [setKey] at h; simp [h]
  | cons p ps ih =>
    by_cases hp : p.1 = k
    · rw [setKey_cons_of_eq ps v hp] at h
      simp only [List.map_cons, List.mem_cons] at h ⊢
      rcases h with h | h
      · right; exact h
      · left; right; exact h
    · rw [setKey_cons_of_ne ps v hp] at h
      simp only [List.map_cons, List.mem_cons] at h ⊢
      rcases h with h | h
      · left; left; exact h
      · rcases ih h with h | h
        · left; right; exact h
        · right; exact h

theorem mem_setKey {l : List (String × α)} {k : String} {v : α} {q : String × α}
    (h : q ∈ setKey l k v) : q ∈ l ∨ q = (k, v) := by
  induction l with
  | nil => simp [setKey] at h; simp [h]
  | cons p ps ih =>
    by_cases hp : p.1 = k
    · rw [setKey_cons_of_eq ps v hp] at h
      rcases List.mem_cons.mp h with h | h
      · right; exact h
      · left; exact List.mem_cons_of_mem _ h
    · rw [setKey_cons_of_ne ps v hp] at h
      rcases List.mem_cons.mp h with h | h
      · left; exact h ▸ List.mem_cons_self _ _
      · rcases ih h with h | h
        · left; exact List.mem_cons_of_mem _ h
        · right; exact h

theorem nodup_setKey {l : List (String × α)} (k : String) (v : α)
    (h : (l.map Prod.fst).Nodup) : ((setKey l k v).map Prod.fst).Nodup := by
  induction l with
  | nil => simp [setKey]
  | cons p ps ih =>
    simp only [List.map_cons, List.nodup_cons] at h
    by_cases hp : p.1 = k
    · rw [setKey_cons_of_eq ps v hp]
      simp only [List.map_cons, List.nodup_cons]
      exact ⟨hp ▸ h.1, h.2⟩
    · rw [setKey_cons_of_ne ps v hp]
      simp only [List.map_cons, List.nodup_cons]
      refine ⟨fun hmem => ?_, ih h.2⟩
      rcases mem_keys_setKey hmem with hmem | hmem
      · exact h.1 hmem
      · exact hp (hmem ▸ rfl)

theorem spread_nil (a : List (String × α)) : spread a [] = a := rfl

theorem spread_cons (a : List (String × α)) (p : String × α)
    (b : List (String × α)) : spread a (p :: b) = spread (setKey a p.1 p.2) b := rfl

theorem getKey_spread (a : List (String × α)) {b : List (String × α)} (k : String)
    (hb : (b.map Prod.fst).Nodup) :
    getKey (spread a b) k = orFallback (getKey b k) (getKey a k) := by
  induction b generalizing a with
  | nil => simp [spread_nil, getKey_nil, orFallback]
  | cons p bs ih =>
    simp only [List.map_cons, List.nodup_cons] at hb
    rw [spread_cons, ih _ hb.2, getKey_cons]
    by_cases h : p.1 = k
    · have hbs : getKey bs k = none := (getKey_eq_none_iff bs k).mpr (h ▸ hb.1)
      rw [if_pos h, hbs, getKey_setKey]
      simp [orFallback, h]
    · rw [if_neg h, getKey_setKey]
      rw [if_neg (fun hh : k = p.1 => h hh.symm)]

theorem mem_keys_spread {a b : List (String × α)} {k : String}
    (h : k ∈ ((spread a b).map Prod.fst)) :
    k ∈ a.map Prod.fst ∨ k ∈ b.map Prod.fst := by
  induction b generalizing a with
  | nil => left; exact h
  | cons p bs ih =>
    rw [spread_cons] at h
    rcases ih h with h | h
    · rcases mem_keys_setKey h with h | h
      · left; exact h
      · right; simp [h]
    · right; simp [h]

theorem nodup_spread {a : List (String × α)} (b : List (String × α))
    (h : (a.map Prod.fst).Nodup) : ((spread a b).map Prod.fst).Nodup := by
  induction b generalizing a with
  | nil => exact h
  | cons p bs ih => exact spread_cons a p bs ▸ ih (nodup_setKey p.1 p.2 h)

theorem mem_foldl_setKey {keyOf : α → String} {valOf : α → β} :
    ∀ (l : List α) (acc : List (String × β)) (q : String × β),
      q ∈ l.foldl (fun acc x => setKey acc (keyOf x) (valOf x)) acc →
      q ∈ acc ∨ ∃ x ∈ l, q = (keyOf x, valOf x)
  | [], _, _, h => Or.inl h
  | x :: xs, acc, q, h => by
    simp only [List.foldl_cons] at h
    rcases mem_foldl_setKey xs _ q h with hq | hq
    · rcases mem_setKey hq with hq | hq
      · exact Or.inl hq
      · exact Or.inr ⟨x, List.mem_cons_self _ _, hq⟩
    · rcases hq with ⟨y, hy, hq⟩
      exact Or.inr ⟨y, List.mem_cons_of_mem _ hy, hq⟩

theorem mem_buildMap {keyOf : α → String} {valOf : α → β} {l : List α}
    {q : String × β} (h : q ∈ buildMap keyOf valOf l) :
    ∃ x ∈ l, q = (keyOf x, valOf x) := by
  rcases mem_foldl_setKey l [] q h with hq | hq
  · simp at hq
  · exact hq

theorem setKey_eq_append {l : List (String × α)} {k : String} (v : α)
    (h : k ∉ l.map Prod.fst) : setKey l k v = l ++ [(k, v)] := by
  induction l with
  | nil => rfl
  | cons p ps ih =>
    simp only [List.map_cons, List.mem_cons, not_or] at h
    rw [setKey_cons_of_ne ps v (fun hh => h.1 hh.symm), ih h.2, List.cons_append]

theorem buildMap_eq_map {keyOf : α → String} (valOf : α → β) {l : List α}
    (h : (l.map keyOf).Nodup) :
    buildMap keyOf valOf l = l.map (fun x => (keyOf x, valOf x)) := by
  suffices haux : ∀ acc : List (String × β),
      (∀ x ∈ l, keyOf x ∉ acc.map Prod.fst) →
      l.foldl (fun acc x => setKey acc (keyOf x) (valOf x)) acc =
        acc ++ l.map (fun x => (keyOf x, valOf x)) by
    simpa using haux [] (by simp)
  induction l with
  | nil => simp
  | cons x xs ih =>
    intro acc hacc
    simp only [List.map_cons, List.nodup_cons] at h
    have hset : setKey acc (keyOf x) (valOf x) = acc ++ [(keyOf x, valOf x)] :=
      setKey_eq_append (valOf x) (hacc x (List.mem_cons_self _ _))
    simp only [List.foldl_cons, hset]
    rw [ih h.2 _ ?_]
    · simp
    · intro y hy
      simp only [List.map_append, List.map_cons, List.map_nil, List.mem_append,
        List.mem_singleton, not_or]
      exact ⟨fun hh => hacc y (List.mem_cons_of_mem _ hy) hh,
        fun hh => h.1 (hh ▸ List.mem_map_of_mem keyOf hy)⟩

/-! ### The matcher loops as contribution folds -/

theorem mergeContribs_nil (f : α → Option Styles) (init : Styles) :
    mergeContribs f init [] = init := rfl

theorem mergeContribs_cons (f : α → Option Styles) (init : Styles) (x : α)
    (l : List α) :
    mergeContribs f init (x :: l) =
      mergeContribs f
        (match f x with
         | some st => spread init st
         | none => init) l := rfl

theorem mergeContribs_congr {f g : α → Option Styles} (init : Styles)
    {l : List α} (h : ∀ x ∈ l, f x = g x) :
    mergeContribs f init l = mergeContribs g init l := by
  unfold mergeContribs
  exact List.foldl_ext _ _ init (fun acc x hx => by rw [h x hx])

theorem mergeContribs_append (f : α → Option Styles) (init : Styles)
    (l : List α) (x : α) :
    mergeContribs f init (l ++ [x]) =
      match f x with
      | some st => spread (mergeContribs f init l) st
      | none => mergeContribs f init l := by
  unfold mergeContribs
  rw [List.foldl_append, List.foldl_cons, List.foldl_nil]

theorem mergeContribs_map (f : β → Option Styles) (g : α → β) (init : Styles)
    (l : List α) :
    mergeContribs f init (l.map g) = mergeContribs (fun x => f (g x)) init l := by
  unfold mergeContribs
  rw [List.foldl_map]

theorem nodup_mergeContribs (f : α → Option Styles) :
    ∀ (l : List α) (init : Styles), (init.map Prod.fst).Nodup →
      ((mergeContribs f init l).map Prod.fst).Nodup
  | [], _, h => h
  | x :: xs, init, h => by
    rw [mergeContribs_cons]
    cases hf : f x with
    | none => exact nodup_mergeContribs f xs init (by simpa [hf] using h)
    | some st =>
      have := nodup_mergeContribs f xs (spread init st) (nodup_spread st h)
      simpa [hf] using this

theorem clean_spread {utils : UtilsTable} {a b : Styles}
    (ha : cleanStyles utils a) (hb : cleanStyles utils b) :
    cleanStyles utils (spread a b) := by
  intro k hk
  rcases mem_keys_spread hk with hk | hk
  · exact ha k hk
  · exact hb k hk

theorem clean_setKey {utils : UtilsTable} {l : Styles} {k : String} {v : SVal}
    (hl : cleanStyles utils l) (hk : (getKey utils k).isNone = true) :
    cleanStyles utils (setKey l k v) := by
  intro x hx
  rcases mem_keys_setKey hx with hx | hx
  · exact hl x hx
  · exact hx ▸ hk

theorem clean_mergeContribs {utils : UtilsTable} (f : α → Option Styles) :
    ∀ (l : List α) (init : Styles), cleanStyles utils init →
      (∀ x ∈ l, ∀ st, f x = some st → cleanStyles utils st) →
      cleanStyles utils (mergeContribs f init l)
  | [], _, h, _ => h
  | x :: xs, init, h, hf => by
    rw [mergeContribs_cons]
    cases hfx : f x with
    | none =>
      refine clean_mergeContribs f xs _ (by simpa [hfx] using h) ?_
      exact fun y hy => hf y (List.mem_cons_of_mem _ hy)
    | some st =>
      refine clean_mergeContribs f xs _ ?_
        (fun y hy => hf y (List.mem_cons_of_mem _ hy))
      have hst := hf x (List.mem_cons_self _ _) st hfx
      simpa [hfx] using clean_spread h hst

theorem applyVariant_eq_mergeContribs (slot : String) (variants : VariantsTable)
    (props : Selection) :
    applyVariant slot variants props =
      mergeContribs (variantContribution slot props) [] variants := by
  unfold applyVariant mergeContribs
  refine List.foldl_ext _ _ [] (fun acc vp _ => ?_)
  unfold variantContribution
  cases hg : getKey props vp.1 with
  | none => rfl
  | some ov =>
    cases ov with
    | none => rfl
    | some v => rfl

theorem applyCompound_eq_mergeContribs (slot : String)
    (compoundVariants : List Compound) (props : Selection) :
    applyCompound slot compoundVariants props =
      mergeContribs (compoundContribution slot props) [] compoundVariants := by
  unfold applyCompound mergeContribs
  refine List.foldl_ext _ _ [] (fun acc cv _ => ?_)
  unfold compoundContribution
  by_cases h : compoundMatches cv.conds props
  · simp only [h, if_true]
  · simp only [h, Bool.false_eq_true, if_false]

theorem nodup_applyVariant (slot : String) (variants : VariantsTable)
    (props : Selection) :
    ((applyVariant slot variants props).map Prod.fst).Nodup := by
  rw [applyVariant_eq_mergeContribs]
  exact nodup_mergeContribs _ variants [] List.nodup_nil

theorem nodup_applyCompound (slot : String) (compoundVariants : List Compound)
    (props : Selection) :
    ((applyCompound slot compoundVariants props).map Prod.fst).Nodup := by
  rw [applyCompound_eq_mergeContribs]
  exact nodup_mergeContribs _ compoundVariants [] List.nodup_nil

theorem all_congr {f g : α → Bool} :
    ∀ {l : List α}, (∀ x ∈ l, f x = g x) → l.all f = l.all g
  | [], _ => rfl
  | x :: xs, h => by
    simp only [List.all_cons, h x (List.mem_cons_self _ _),
      all_congr (fun y hy => h y (List.mem_cons_of_mem _ hy))]


/-! ### Util expansion: cleanliness, no-duplicate keys, identity, idempotence -/

theorem expandUtils_some (st : Styles) (utils : UtilsTable) :
    expandUtils (some st) utils =
      st.foldl (fun result kv =>
        match getKey utils kv.1 with
        | some utilFn => spread result (utilFn kv.2)
        | none => setKey result kv.1 kv.2) [] := rfl

theorem expandBaseUtils_some (b : SlotMap) (utils : UtilsTable) :
    expandBaseUtils (some b) utils =
      buildMap Prod.fst (fun sp => expandUtils (some sp.2) utils) b := rfl

theorem expandVariantsUtils_some (vs : VariantsTable) (utils : UtilsTable) :
    expandVariantsUtils (some vs) utils =
      buildMap Prod.fst (fun vp =>
        buildMap Prod.fst (fun valp =>
          buildMap Prod.fst (fun sp => expandUtils (some sp.2) utils) valp.2)
          vp.2) vs := rfl

theorem clean_expandUtils_fold {utils : UtilsTable} (hU : cleanUtils utils) :
    ∀ (s acc : Styles), cleanStyles utils acc →
      cleanStyles utils (s.foldl (fun result kv =>
        match getKey utils kv.1 with
        | some utilFn => spread result (utilFn kv.2)
        | none => setKey result kv.1 kv.2) acc)
  | [], _, h => h
  | kv :: s, acc, h => by
    rw [List.foldl_cons]
    cases hg : getKey utils kv.1 with
    | some utilFn =>
      refine clean_expandUtils_fold hU s _ ?_
      simp only [hg]
      exact clean_spread h (hU _ (getKey_mem hg) kv.2)
    | none =>
      refine clean_expandUtils_fold hU s _ ?_
      simp only [hg]
      exact clean_setKey h (by simp [hg])

theorem clean_expandUtils {utils : UtilsTable} (hU : cleanUtils utils)
    (s : Styles) : cleanStyles utils (expandUtils (some s) utils) := by
  unfold expandUtils
  exact clean_expandUtils_fold hU s [] (fun k hk => by simp at hk)

theorem nodup_expandUtils_fold (utils : UtilsTable) :
    ∀ (s acc : Styles), (acc.map Prod.fst).Nodup →
      (((s.foldl (fun result kv =>
        match getKey utils kv.1 with
        | some utilFn => spread result (utilFn kv.2)
        | none => setKey result kv.1 kv.2) acc)).map Prod.fst).Nodup
  | [], _, h => h
  | kv :: s, acc, h => by
    rw [List.foldl_cons]
    cases hg : getKey utils kv.1 with
    | some utilFn =>
      refine nodup_expandUtils_fold utils s _ ?_
      simp only [hg]
      exact nodup_spread _ h
    | none =>
      refine nodup_expandUtils_fold utils s _ ?_
      simp only [hg]
      exact nodup_setKey _ _ h

theorem nodup_expandUtils (utils : UtilsTable) (s : Styles) :
    ((expandUtils (some s) utils).map Prod.fst).Nodup := by
  unfold expandUtils
  exact nodup_expandUtils_fold utils s [] List.nodup_nil

theorem expandUtils_fold_id {utils : UtilsTable} :
    ∀ (s acc : Styles),
      (∀ k ∈ s.map Prod.fst, (getKey utils k).isNone = true) →
      (∀ k ∈ s.map Prod.fst, k ∉ acc.map Prod.fst) →
      (s.map Prod.fst).Nodup →
      s.foldl (fun result kv =>
        match getKey utils kv.1 with
        | some utilFn => spread result (utilFn kv.2)
        | none => setKey result kv.1 kv.2) acc = acc ++ s
  | [], acc, _, _, _ => by simp
  | kv :: s, acc, hclean, hdisj, hnd => by
    rw [List.foldl_cons]
    have hnone : getKey utils kv.1 = none :=
      Option.isNone_iff_eq_none.mp (hclean kv.1 (by simp))
    simp only [hnone]
    rw [setKey_eq_append kv.2 (hdisj kv.1 (by simp))]
    simp only [List.map_cons, List.nodup_cons] at hnd
    rw [expandUtils_fold_id s (acc ++ [(kv.1, kv.2)])
      (fun k hk => hclean k (by simp [hk]))
      (fun k hk => by
        simp only [List.map_append, List.map_cons, List.map_nil,
          List.mem_append, List.mem_singleton, not_or]
        exact ⟨hdisj k (by simp [hk]), fun hh => hnd.1 (hh ▸ hk)⟩)
      hnd.2]
    simp

theorem expandUtils_id {utils : UtilsTable} {s : Styles}
    (hclean : ∀ k ∈ s.map Prod.fst, (getKey utils k).isNone = true)
    (hnd : (s.map Prod.fst).Nodup) : expandUtils (some s) utils = s := by
  rw [expandUtils_some, expandUtils_fold_id s [] hclean (by simp) hnd]
  simp

theorem expandUtils_idem {utils : UtilsTable} (hU : cleanUtils utils)
    (s : Styles) :
    expandUtils (some (expandUtils (some s) utils)) utils =
      expandUtils (some s) utils :=
  expandUtils_id (clean_expandUtils hU s) (nodup_expandUtils utils s)

/-! ### The expanded configuration: cleanliness and util-free identity -/

theorem clean_expandBase {utils : UtilsTable} (hU : cleanUtils utils)
    (b : SlotMap) :
    ∀ sp ∈ expandBaseUtils (some b) utils, cleanStyles utils sp.2 := by
  intro sp hsp
  rcases mem_buildMap hsp with ⟨x, _, hq⟩
  subst hq
  exact clean_expandUtils hU x.2

theorem clean_expandVariants {utils : UtilsTable} (hU : cleanUtils utils)
    (vs : VariantsTable) :
    ∀ vp ∈ expandVariantsUtils (some vs) utils, ∀ valp ∈ vp.2,
      ∀ sp ∈ valp.2, cleanStyles utils sp.2 := by
  intro vp hvp valp hvalp sp hsp
  rcases mem_buildMap hvp with ⟨x, _, hq⟩
  subst hq
  rcases mem_buildMap hvalp with ⟨y, _, hq⟩
  subst hq
  rcases mem_buildMap hsp with ⟨z, _, hq⟩
  subst hq
  exact clean_expandUtils hU z.2

theorem clean_expandCompound {utils : UtilsTable} (hU : cleanUtils utils)
    (cvs : List Compound) :
    ∀ cv ∈ expandCompoundUtils (some cvs) utils, ∀ m, cv.css = some m →
      ∀ sp ∈ m, cleanStyles utils sp.2 := by
  intro cv hcv m hm sp hsp
  rcases List.mem_map.mp hcv with ⟨cv0, _, hq⟩
  subst hq
  simp only at hm
  cases hm2 : cv0.css with
  | none =>
    rw [hm2] at hm
    cases hm
    simp at hsp
  | some m0 =>
    rw [hm2] at hm
    cases hm
    rcases mem_buildMap hsp with ⟨z, _, hq⟩
    subst hq
    exact clean_expandUtils hU z.2

theorem expandBase_id {utils : UtilsTable} {b : SlotMap}
    (hnd : (b.map Prod.fst).Nodup) (h : ∀ sp ∈ b, wfLeaf utils sp.2) :
    expandBaseUtils (some b) utils = b := by
  rw [expandBaseUtils_some, buildMap_eq_map _ hnd]
  have hid : ∀ sp ∈ b, (sp.1, expandUtils (some sp.2) utils) = sp := by
    intro sp hsp
    rw [expandUtils_id (h sp hsp).1 (h sp hsp).2]
  rw [List.map_congr_left hid]
  simp

theorem expandVariants_id {utils : UtilsTable} {vs : VariantsTable}
    (hnd : (vs.map Prod.fst).Nodup)
    (h : ∀ vp ∈ vs, (vp.2.map Prod.fst).Nodup ∧
      ∀ valp ∈ vp.2, (valp.2.map Prod.fst).Nodup ∧
        ∀ sp ∈ valp.2, wfLeaf utils sp.2) :
    expandVariantsUtils (some vs) utils = vs := by
  rw [expandVariantsUtils_some, buildMap_eq_map _ hnd]
  have hout : ∀ vp ∈ vs,
      (Prod.fst vp, buildMap Prod.fst
        (fun valp => buildMap Prod.fst
          (fun sp => expandUtils (some sp.2) utils) valp.2) vp.2) = vp := by
    intro vp hvp
    rcases h vp hvp with ⟨hnd2, h2⟩
    rw [buildMap_eq_map _ hnd2]
    have hmid : ∀ valp ∈ vp.2,
        (Prod.fst valp, buildMap Prod.fst
          (fun sp => expandUtils (some sp.2) utils) valp.2) = valp := by
      intro valp hvalp
      rcases h2 valp hvalp with ⟨hnd3, h3⟩
      rw [buildMap_eq_map _ hnd3]
      have hleaf : ∀ sp ∈ valp.2,
          (Prod.fst sp, expandUtils (some sp.2) utils) = sp := by
        intro sp hsp
        rw [expandUtils_id (h3 sp hsp).1 (h3 sp hsp).2]
      rw [List.map_congr_left hleaf]
      simp
    rw [List.map_congr_left hmid]
    simp
  rw [List.map_congr_left hout]
  simp

theorem expandCompound_wrap {utils : UtilsTable} {cvs : List Compound}
    (h : ∀ cv ∈ cvs, (((cv.css.getD []).map Prod.fst).Nodup ∧
      ∀ sp ∈ cv.css.getD [], wfLeaf utils sp.2)) :
    expandCompoundUtils (some cvs) utils =
      cvs.map (fun cv => ⟨cv.conds, some (cv.css.getD [])⟩) := by
  unfold expandCompoundUtils
  refine List.map_congr_left (fun cv hcv => ?_)
  rcases h cv hcv with ⟨hnd, hleaf⟩
  cases hcss : cv.css with
  | none => simp [hcss]
  | some m =>
    simp only [hcss, Option.getD_some]
    rw [hcss] at hnd hleaf
    simp only [Option.getD_some] at hnd hleaf
    rw [buildMap_eq_map _ hnd]
    have hid : ∀ sp ∈ m, (Prod.fst sp, expandUtils (some sp.2) utils) = sp := by
      intro sp hsp
      rw [expandUtils_id (hleaf sp hsp).1 (hleaf sp hsp).2]
    rw [List.map_congr_left hid]
    simp

theorem applyCompound_wrap (slot : String) (cvs : List Compound)
    (props : Selection) :
    applyCompound slot (cvs.map (fun cv => ⟨cv.conds, some (cv.css.getD [])⟩))
      props = applyCompound slot cvs props := by
  rw [applyCompound_eq_mergeContribs, applyCompound_eq_mergeContribs,
    mergeContribs_map]
  refine mergeContribs_congr [] (fun cv _ => ?_)
  unfold compoundContribution
  by_cases hm : compoundMatches cv.conds props
  · simp only [hm, if_true]
    cases hcss : cv.css <;> simp [hcss, getKey_nil]
  · simp only [hm, Bool.false_eq_true, if_false]

theorem buildMap_congr {keyOf : α → String} {f g : α → β} {l : List α}
    (h : ∀ x ∈ l, f x = g x) : buildMap keyOf f l = buildMap keyOf g l := by
  unfold buildMap
  exact List.foldl_ext _ _ [] (fun acc x hx => by rw [h x hx])

theorem nvaStyled_eq (utils : UtilsTable) (cfg : NVAConfig) :
    nvaStyled utils cfg = computeStyles (nvaStyledConfig utils cfg) := rfl

theorem computeStyles_ext (cfg1 cfg2 : NVAConfig)
    (hs : cfg1.slots = cfg2.slots)
    (hd : cfg1.defaultVariants = cfg2.defaultVariants)
    (hall : ∀ rp slot, computeSlotStyles slot cfg1.base cfg1.variants
      cfg1.compoundVariants rp = computeSlotStyles slot cfg2.base cfg2.variants
      cfg2.compoundVariants rp)
    (st : CacheState) (props : Option Selection) :
    computeStyles cfg1 st props = computeStyles cfg2 st props := by
  have hres : computeAll cfg1 (resolveProps cfg1.defaultVariants props) =
      computeAll cfg2 (resolveProps cfg2.defaultVariants props) := by
    unfold computeAll
    rw [hs, hd]
    exact buildMap_congr (fun slot _ => hall _ slot)
  simp only [computeStyles]
  rw [hres]


/-! ### Cleanliness of everything a resolver can return -/

theorem clean_nil (utils : UtilsTable) : cleanStyles utils [] :=
  fun _ hk => by simp at hk

theorem clean_applyVariant {utils : UtilsTable} (slot : String)
    {variants : VariantsTable} (props : Selection)
    (h : ∀ vp ∈ variants, ∀ valp ∈ vp.2, ∀ sp ∈ valp.2, cleanStyles utils sp.2) :
    cleanStyles utils (applyVariant slot variants props) := by
  rw [applyVariant_eq_mergeContribs]
  refine clean_mergeContribs _ variants [] (clean_nil utils) ?_
  intro vp hvp st hst
  unfold variantContribution at hst
  cases hg : getKey props vp.1 with
  | none => rw [hg] at hst; simp at hst
  | some ov =>
    cases ov with
    | none => rw [hg] at hst; simp at hst
    | some v =>
      rw [hg] at hst
      rcases Option.bind_eq_some.mp hst with ⟨sm, hsm, hsl⟩
      exact h vp hvp _ (getKey_mem hsm) _ (getKey_mem hsl)

theorem clean_applyCompound {utils : UtilsTable} (slot : String)
    {compoundVariants : List Compound} (props : Selection)
    (h : ∀ cv ∈ compoundVariants, ∀ m, cv.css = some m →
      ∀ sp ∈ m, cleanStyles utils sp.2) :
    cleanStyles utils (applyCompound slot compoundVariants props) := by
  rw [applyCompound_eq_mergeContribs]
  refine clean_mergeContribs _ compoundVariants [] (clean_nil utils) ?_
  intro cv hcv st hst
  unfold compoundContribution at hst
  cases hm : compoundMatches cv.conds props with
  | false => rw [hm] at hst; simp at hst
  | true =>
    rw [hm] at hst
    simp only [if_true] at hst
    rcases Option.bind_eq_some.mp hst with ⟨m, hmm, hsl⟩
    exact h cv hcv m hmm _ (getKey_mem hsl)

theorem clean_computeSlotStyles {utils : UtilsTable} (slot : String)
    {base : SlotMap} {variants : VariantsTable}
    {compoundVariants : List Compound} (props : Selection)
    (hbase : ∀ sp ∈ base, cleanStyles utils sp.2)
    (hvar : ∀ vp ∈ variants, ∀ valp ∈ vp.2, ∀ sp ∈ valp.2, cleanStyles utils sp.2)
    (hcv : ∀ cv ∈ compoundVariants, ∀ m, cv.css = some m →
      ∀ sp ∈ m, cleanStyles utils sp.2) :
    cleanStyles utils (computeSlotStyles slot base variants compoundVariants props) := by
  simp only [computeSlotStyles]
  refine clean_spread (clean_spread ?_ (clean_applyVariant slot props hvar))
    (clean_applyCompound slot props hcv)
  cases hb : getKey base slot with
  | none => exact clean_nil utils
  | some stb => exact hbase _ (getKey_mem hb)

theorem clean_computeAll {utils : UtilsTable} (cfg : NVAConfig)
    (hU : cleanUtils utils) (rp : Selection) :
    ∀ sp ∈ computeAll (nvaStyledConfig utils cfg) rp, cleanStyles utils sp.2 := by
  intro sp hsp
  rcases mem_buildMap hsp with ⟨slot, _, hq⟩
  subst hq
  exact clean_computeSlotStyles slot rp
    (clean_expandBase hU cfg.base)
    (clean_expandVariants hU cfg.variants)
    (clean_expandCompound hU cfg.compoundVariants)

/-! ### Small facts about the cache key and the effective selection -/

theorem createCacheKey_none : createCacheKey none = "\x7b\x7d" := rfl

theorem createCacheKey_nilProps :
    createCacheKey (some []) = "\x7b\x7d" := rfl

theorem createCacheKey_undef (k : String) :
    createCacheKey (some [(k, (none : Option SVal))]) = "\x7b\x7d" := by
  have hg : getKey [(k, (none : Option SVal))] k = some none := by
    rw [getKey_cons]
    simp
  simp [createCacheKey, sortStrings, insertSorted, hg]

theorem resolveProps_none (dv : Selection) : resolveProps dv none = dv := rfl

theorem resolveProps_nilProps (dv : Selection) :
    resolveProps dv (some []) = dv := rfl

theorem resolveProps_undef (dv : Selection) (k : String) :
    resolveProps dv (some [(k, none)]) = dv := rfl

theorem computeStyles_props_congr (cfg : NVAConfig) (st : CacheState)
    {p1 p2 : Option Selection}
    (hkey : createCacheKey p1 = createCacheKey p2)
    (hres : resolveProps cfg.defaultVariants p1 =
      resolveProps cfg.defaultVariants p2) :
    computeStyles cfg st p1 = computeStyles cfg st p2 := by
  simp only [computeStyles, hkey, hres]

/-! ### Precedence inside one slot -/

theorem getKey_computeSlotStyles (slot : String) (base : SlotMap)
    (variants : VariantsTable) (compoundVariants : List Compound)
    (props : Selection) (k : String) :
    getKey (computeSlotStyles slot base variants compoundVariants props) k =
      orFallback (getKey (applyCompound slot compoundVariants props) k)
        (orFallback (getKey (applyVariant slot variants props) k)
          (getKey ((getKey base slot).getD []) k)) := by
  simp only [computeSlotStyles]
  rw [getKey_spread _ k (nodup_applyCompound slot compoundVariants props),
    getKey_spread _ k (nodup_applyVariant slot variants props)]

theorem applyVariant_append (slot : String) (variants : VariantsTable)
    (name : String) (tbl : List (String × SlotMap)) (props : Selection) :
    applyVariant slot (variants ++ [(name, tbl)]) props =
      match variantContribution slot props (name, tbl) with
      | some st => spread (applyVariant slot variants props) st
      | none => applyVariant slot variants props := by
  rw [applyVariant_eq_mergeContribs, applyVariant_eq_mergeContribs,
    mergeContribs_append]


/-! ### The claims -/

/-- C1: the cache-key canonicalization is claimed sound — computed over the
already-defaulted effective selection, with no collisions between
semantically different selections.  The code computes the key over the raw
props with unescaped `:` / `;` separators: the semantically different
selections `{ a: "x;b:y" }` and `{ a: "x", b: "y" }` (whose
effective selections and resolved outputs differ) share the cache key
`"a:x;b:y;"`, so the second call returns the first call's cached result
instead of its own, as the last conjunct evaluates. -/
theorem claim_C1_cache_key_collision :
    createCacheKey (some selEmbed) = createCacheKey (some selSplit) ∧
    resolveProps cfgCollide.defaultVariants (some selEmbed) ≠
      resolveProps cfgCollide.defaultVariants (some selSplit) ∧
    computeAll cfgCollide
        (resolveProps cfgCollide.defaultVariants (some selEmbed)) ≠
      computeAll cfgCollide
        (resolveProps cfgCollide.defaultVariants (some selSplit)) ∧
    (computeStyles cfgCollide
        (computeStyles cfgCollide CacheState.empty (some selEmbed)).2
        (some selSplit)).1.2 =
      computeAll cfgCollide
        (resolveProps cfgCollide.defaultVariants (some selEmbed)) := by
  refine ⟨by decide, by decide, by decide, by decide⟩

/-- C2: the resolver is claimed deterministic and referentially stable on
equal effective selections.  On `cfgCollide`, the first and third calls of
the sequence `resolve({ b:"y" })`, `resolve({ a:"x;b:y" })`,
`resolve({ a:"x", b:"y" })` have equal effective (defaulted)
selections, yet return results that are not deeply equal (the third call
hits the second call's colliding cache key) and are distinct object
instances (different allocation stamps). -/
theorem claim_C2_determinism_violation :
    resolveProps cfgCollide.defaultVariants (some selPartB) =
      resolveProps cfgCollide.defaultVariants (some selSplit) ∧
    callOne.1.2 ≠ callThree.1.2 ∧
    callOne.1.1 ≠ callThree.1.1 := by
  refine ⟨by decide, by decide, by decide⟩

/-- C3: merge precedence within every slot is base, then single-variant
matches (variant-table declaration order, later-declared name winning),
then compound matches: a key lookup in the composed slot falls back from
the compound contribution to the variant contribution to the base styles;
appending a later-declared variant spreads its contribution over the
earlier ones; and in the §8 example, `resolve({ big: true })` gives
`root.padding = 32`. -/
theorem claim_C3_precedence :
    (∀ (slot : String) (base : SlotMap) (variants : VariantsTable)
        (compoundVariants : List Compound) (props : Selection) (k : String),
      getKey (computeSlotStyles slot base variants compoundVariants props) k =
        orFallback (getKey (applyCompound slot compoundVariants props) k)
          (orFallback (getKey (applyVariant slot variants props) k)
            (getKey ((getKey base slot).getD []) k))) ∧
    (∀ (slot : String) (variants : VariantsTable) (name : String)
        (tbl : List (String × SlotMap)) (props : Selection),
      applyVariant slot (variants ++ [(name, tbl)]) props =
        match variantContribution slot props (name, tbl) with
        | some st => spread (applyVariant slot variants props) st
        | none => applyVariant slot variants props) ∧
    getKey ((getKey (computeStyles cfgPrec CacheState.empty
        (some [("big", some (.bool true))])).1.2 "root").getD []) "padding" =
      some (.num 32) :=
  ⟨getKey_computeSlotStyles, applyVariant_append, by decide⟩

/-- C4: `resolve({})`, `resolve(undefined)` and
`resolve({ k: undefined })` are indistinguishable — all three produce
the cache key `"{}"` and the effective selection equal to the declared
defaults — and on a cache miss the returned set is exactly the resolution
under the declared defaults alone. -/
theorem claim_C4_default_overlay :
    (∀ (cfg : NVAConfig) (st : CacheState),
      computeStyles cfg st none = computeStyles cfg st (some [])) ∧
    (∀ (cfg : NVAConfig) (st : CacheState) (k : String),
      computeStyles cfg st (some [(k, none)]) = computeStyles cfg st (some [])) ∧
    (∀ (cfg : NVAConfig) (st : CacheState),
      getKey st.cache "{}" = none →
      (computeStyles cfg st none).1.2 = computeAll cfg cfg.defaultVariants) := by
  refine ⟨fun cfg st => rfl, fun cfg st k => ?_, fun cfg st h => ?_⟩
  · exact computeStyles_props_congr cfg st (createCacheKey_undef k)
      (resolveProps_undef cfg.defaultVariants k)
  · simp only [computeStyles, createCacheKey_none, h]
    rfl

/-- C4 witness: on a fresh resolver for the §8 scenario configuration,
`resolve()` returns the resolution under the declared defaults. -/
theorem claim_C4_default_overlay_witness :
    (computeStyles cfgScenario CacheState.empty none).1.2 =
      computeAll cfgScenario cfgScenario.defaultVariants :=
  claim_C4_default_overlay.2.2 cfgScenario CacheState.empty (by decide)

/-- C5 counterexample: the claim "no util-named key appears in any slot of
the returned Resolved Style Set" fails for a util that (by the documented
shadowing design) bears a real style property's name and re-emits it: with
util table `{ padding: v => ({ padding: v }) }` and base
`{ root: { padding: 1 } }`, the resolved `root` slot contains
the util-named key `padding`. -/
theorem claim_C5_util_named_key_survives :
    (getKey utilsShadow "padding").isSome = true ∧
    getKey ((getKey ((nvaStyled utilsShadow cfgShadow
        CacheState.empty none).1.2) "root").getD []) "padding" =
      some (.num 1) := by
  refine ⟨rfl, by decide⟩

/-- C5 (amended): utils are expanded exactly once, at declaration time —
the returned resolver is exactly the plain pipeline over the
declaration-time-expanded configuration, so no util function is consulted
at call time — and, provided no util's output itself contains a util-named
key, no util-named key appears in any slot of a freshly computed Resolved
Style Set; the `px` example expands to `paddingLeft` / `paddingRight` with
no `px` key. -/
theorem claim_C5_utils_expanded_once :
    (∀ (utils : UtilsTable) (cfg : NVAConfig),
      nvaStyled utils cfg = computeStyles (nvaStyledConfig utils cfg)) ∧
    (∀ (utils : UtilsTable) (cfg : NVAConfig), cleanUtils utils →
      ∀ (props : Option Selection) (sp : String × Styles),
        sp ∈ (nvaStyled utils cfg CacheState.empty props).1.2 →
        cleanStyles utils sp.2) ∧
    (nvaStyled utilsPx cfgPx CacheState.empty none).1.2 =
      [("root", [("paddingLeft", .num 10), ("paddingRight", .num 10)])] := by
  refine ⟨nvaStyled_eq, ?_, by decide⟩
  intro utils cfg hU props sp hsp
  have hsp2 : sp ∈ computeAll (nvaStyledConfig utils cfg)
      (resolveProps cfg.defaultVariants props) := hsp
  exact clean_computeAll cfg hU _ sp hsp2

/-- The `px` util table re-emits no util-named key. -/
theorem cleanUtils_utilsPx : cleanUtils utilsPx := by
  intro p hp v k hk
  simp only [utilsPx, List.mem_singleton] at hp
  subst hp
  simp only [List.map_cons, List.map_nil, List.mem_cons,
    List.not_mem_nil, or_false] at hk
  rcases hk with rfl | rfl <;> rfl

/-- C5 witness: the `px`-expanded root styles of `cfgPx` are util-free. -/
theorem claim_C5_utils_expanded_once_witness :
    cleanStyles utilsPx [("paddingLeft", SVal.num 10), ("paddingRight", SVal.num 10)] :=
  claim_C5_utils_expanded_once.2.1 utilsPx cfgPx cleanUtils_utilsPx none
    ("root", [("paddingLeft", SVal.num 10), ("paddingRight", SVal.num 10)])
    (by decide)

/-- C6 counterexample: the claim says a condition key missing from the
effective selection always causes non-match, but the code stringifies the
missing value to `"undefined"`, so the rule `{ size: "undefined" }`
matches the empty selection. -/
theorem claim_C6_missing_key_still_matches :
    getKey ([] : Selection) "size" = none ∧
    compoundMatches [("size", some (.str "undefined"))] [] = true := by
  exact ⟨rfl, by decide⟩

/-- C6 (amended): a rule matches iff every condition key's normalized value
equals the normalization of the selection's value at that key, where a
missing (or explicitly undefined) key normalizes to the string
`"undefined"` — so a missing key causes non-match except against condition
values normalizing to `"undefined"`; rules are folded in array order with
each matching rule's slot patch spread over the accumulator (later rules
winning) and non-matching rules contributing nothing; booleans normalize
to `"true"` / `"false"` on both sides. -/
theorem claim_C6_compound_matching :
    (∀ (conds props : Selection),
      compoundMatches conds props = true ↔
        ∀ c ∈ conds, normalizeVariantValue c.2 =
          normalizeVariantValue ((getKey props c.1).join)) ∧
    (∀ (slot : String) (cvs : List Compound) (cv : Compound) (props : Selection),
      applyCompound slot (cvs ++ [cv]) props =
        if compoundMatches cv.conds props then
          match cv.css.bind (fun m => getKey m slot) with
          | some patch => spread (applyCompound slot cvs props) patch
          | none => applyCompound slot cvs props
        else applyCompound slot cvs props) ∧
    (∀ b : Bool, normalizeVariantValue (some (.bool b)) =
      if b then "true" else "false") := by
  refine ⟨?_, ?_, fun b => rfl⟩
  · intro conds props
    simp [compoundMatches, List.all_eq_true]
  · intro slot cvs cv props
    rw [applyCompound_eq_mergeContribs, mergeContribs_append,
      ← applyCompound_eq_mergeContribs]
    unfold compoundContribution
    cases hm : compoundMatches cv.conds props with
    | true => simp only [hm, if_true]
    | false => simp only [hm, Bool.false_eq_true, if_false]


/-- C7: a boolean selection value is normalized to the string key
`"true"` / `"false"` before variant-table lookup — selecting the literal
boolean is indistinguishable from selecting the corresponding string for
every variant table — and a selected `false` is matchable: against a table
declared only under `"true"` / `"false"` keys it contributes the styles
declared under `"false"` rather than nothing. -/
theorem claim_C7_boolean_distinctness :
    (normalizeVariantValue (some (.bool true)) = "true" ∧
      normalizeVariantValue (some (.bool false)) = "false") ∧
    (∀ (slot : String) (variants : VariantsTable) (name : String) (b : Bool),
      applyVariant slot variants [(name, some (.bool b))] =
        applyVariant slot variants
          [(name, some (.str (if b then "true" else "false")))]) ∧
    applyVariant "root" variantsDisabled [("disabled", some (.bool false))] =
      [("opacity", .num 5)] := by
  refine ⟨⟨rfl, rfl⟩, ?_, by decide⟩
  intro slot variants name b
  rw [applyVariant_eq_mergeContribs, applyVariant_eq_mergeContribs]
  refine mergeContribs_congr [] (fun vp _ => ?_)
  unfold variantContribution
  rw [getKey_cons, getKey_cons]
  by_cases h : name = vp.1
  · cases b <;> (rw [if_pos h, if_pos h]; rfl)
  · rw [if_neg h, if_neg h]

/-- C8: malformed variant input degrades to "contributes nothing" — a props
entry whose name is declared neither in the variant table nor in any
compound rule's conditions leaves every slot's computation unchanged, a
props entry whose value has no entry in its variant's table contributes
nothing, and in the §8 scenario `resolve({ size: "xl" })` returns the
base-only `{ root: { padding: 8 } }` (the explicit unmatched
value replaces the default and the matcher finds no entry). -/
theorem claim_C8_malformed_input :
    (∀ (slot : String) (base : SlotMap) (variants : VariantsTable)
        (compoundVariants : List Compound) (props : Selection)
        (name : String) (v : Option SVal),
      getKey variants name = none →
      (∀ cv ∈ compoundVariants, getKey cv.conds name = none) →
      computeSlotStyles slot base variants compoundVariants
          ((name, v) :: props) =
        computeSlotStyles slot base variants compoundVariants props) ∧
    (∀ (slot name : String) (tbl : List (String × SlotMap))
        (props : Selection) (v : SVal),
      getKey props name = some (some v) →
      getKey tbl (normalizeVariantValue (some v)) = none →
      applyVariant slot [(name, tbl)] props = []) ∧
    (computeStyles cfgScenario CacheState.empty
        (some [("size", some (.str "xl"))])).1.2 =
      [("root", [("padding", .num 8)])] := by
  refine ⟨?_, ?_, by decide⟩
  · intro slot base variants compoundVariants props name v hvar hcv
    have hv : applyVariant slot variants ((name, v) :: props) =
        applyVariant slot variants props := by
      rw [applyVariant_eq_mergeContribs, applyVariant_eq_mergeContribs]
      refine mergeContribs_congr [] (fun vp hvp => ?_)
      unfold variantContribution
      have hne : vp.1 ≠ name := fun hh =>
        (getKey_eq_none_iff variants name).mp hvar
          (hh ▸ List.mem_map_of_mem Prod.fst hvp)
      rw [getKey_cons, if_neg (fun hh : name = vp.1 => hne hh.symm)]
    have hc : applyCompound slot compoundVariants ((name, v) :: props) =
        applyCompound slot compoundVariants props := by
      rw [applyCompound_eq_mergeContribs, applyCompound_eq_mergeContribs]
      refine mergeContribs_congr [] (fun cv hcvm => ?_)
      unfold compoundContribution
      have hmm : compoundMatches cv.conds ((name, v) :: props) =
          compoundMatches cv.conds props := by
        unfold compoundMatches
        refine all_congr (fun c hc2 => ?_)
        have hne : c.1 ≠ name := fun hh =>
          (getKey_eq_none_iff cv.conds name).mp (hcv cv hcvm)
            (hh ▸ List.mem_map_of_mem Prod.fst hc2)
        rw [getKey_cons, if_neg (fun hh : name = c.1 => hne hh.symm)]
      rw [hmm]
    simp only [computeSlotStyles, hv, hc]
  · intro slot name tbl props v hg hnone
    rw [applyVariant_eq_mergeContribs]
    simp [mergeContribs, variantContribution, hg, hnone]

/-- C8 witness: on the §8 scenario's variant table, an unknown variant name
`tone` leaves the slot computation unchanged, and the unknown value `"xl"`
for `size` contributes nothing. -/
theorem claim_C8_malformed_input_witness :
    computeSlotStyles "root" [("root", [("padding", SVal.num 8)])]
        cfgScenario.variants [] [("tone", some (SVal.str "x"))] =
      computeSlotStyles "root" [("root", [("padding", SVal.num 8)])]
        cfgScenario.variants [] [] ∧
    applyVariant "root" cfgScenario.variants
        [("size", some (SVal.str "xl"))] = [] :=
  ⟨claim_C8_malformed_input.1 "root" [("root", [("padding", SVal.num 8)])]
      cfgScenario.variants [] [] "tone" (some (SVal.str "x"))
      (by decide) (by intro cv hcv; simp at hcv),
    claim_C8_malformed_input.2.1 "root" "size"
      [("sm", [("root", [("padding", SVal.num 4)])]),
       ("lg", [("root", [("padding", SVal.num 16)])])]
      [("size", some (SVal.str "xl"))] (SVal.str "xl")
      (by decide) (by decide)⟩

/-- C9 counterexample: expansion is not idempotent for every util table —
with the shadowing util `padding: v => ({ padding: 4*v })` (the
shadowing the specification explicitly allows), expanding
`{ padding: 2 }` once gives `{ padding: 8 }`, twice gives
`{ padding: 32 }`. -/
theorem claim_C9_not_idempotent :
    expandUtils (some [("padding", SVal.num 2)]) utilsScale =
      [("padding", SVal.num 8)] ∧
    expandUtils (some (expandUtils (some [("padding", SVal.num 2)]) utilsScale))
        utilsScale = [("padding", SVal.num 32)] ∧
    ([("padding", SVal.num 32)] : Styles) ≠ [("padding", SVal.num 8)] := by
  refine ⟨by decide, by decide, by decide⟩

/-- C9 (amended): util expansion is idempotent whenever no util's output
contains a util-named key (in particular whenever no util shadows a name it
re-emits), and on a duplicate-free input containing no util-named keys
expansion is the identity. -/
theorem claim_C9_idempotence :
    (∀ (utils : UtilsTable) (s : Styles), cleanUtils utils →
      expandUtils (some (expandUtils (some s) utils)) utils =
        expandUtils (some s) utils) ∧
    (∀ (utils : UtilsTable) (s : Styles),
      (∀ k ∈ s.map Prod.fst, (getKey utils k).isNone = true) →
      (s.map Prod.fst).Nodup →
      expandUtils (some s) utils = s) :=
  ⟨fun _ s hU => expandUtils_idem hU s,
    fun _ _ h1 h2 => expandUtils_id h1 h2⟩

/-- C9 witness: expanding `{ px: 3 }` twice through the `px` util
table equals expanding it once, and the util-free
`{ paddingTop: 1 }` is copied unchanged. -/
theorem claim_C9_idempotence_witness :
    expandUtils (some (expandUtils (some [("px", SVal.num 3)]) utilsPx))
        utilsPx = expandUtils (some [("px", SVal.num 3)]) utilsPx ∧
    expandUtils (some [("paddingTop", SVal.num 1)]) utilsPx =
      [("paddingTop", SVal.num 1)] :=
  ⟨claim_C9_idempotence.1 utilsPx [("px", SVal.num 3)] cleanUtils_utilsPx,
    claim_C9_idempotence.2 utilsPx [("paddingTop", SVal.num 1)]
      (by intro k hk; simp only [List.map_cons, List.map_nil, List.mem_cons,
        List.not_mem_nil, or_false] at hk; subst hk; rfl)
      (by decide)⟩

/-- C10: for every well-formed configuration none of whose style leaves
mentions a util name, the resolver returned by the theme-aware
`createNVA(...).styled` behaves exactly like the resolver returned by the
plain top-level `styled`: on every cache state and every selection the two
return equal results (and equal successor states) — declaration-time util
expansion is the identity on util-free styles and the two call paths share
the key, matcher and compositor algorithms. -/
theorem claim_C10_declaration_paths_equivalent :
    ∀ (utils : UtilsTable) (cfg : NVAConfig), wfConfig utils cfg →
      ∀ (st : CacheState) (props : Option Selection),
        nvaStyled utils cfg st props = computeStyles cfg st props := by
  intro utils cfg hwf st props
  rw [nvaStyled_eq]
  rcases hwf with ⟨⟨hbnd, hbleaf⟩, ⟨hvnd, hvleaf⟩, hcv⟩
  refine computeStyles_ext (nvaStyledConfig utils cfg) cfg rfl rfl
    (fun rp slot => ?_) st props
  show computeSlotStyles slot (expandBaseUtils (some cfg.base) utils)
      (expandVariantsUtils (some cfg.variants) utils)
      (expandCompoundUtils (some cfg.compoundVariants) utils) rp =
    computeSlotStyles slot cfg.base cfg.variants cfg.compoundVariants rp
  rw [expandBase_id hbnd hbleaf, expandVariants_id hvnd hvleaf,
    expandCompound_wrap hcv]
  simp only [computeSlotStyles]
  rw [applyCompound_wrap]

/-- C10 witness: on the §8 scenario configuration (which uses no util
shorthands) and the `px` util table, both declaration paths return the same
result for `resolve({ size: "lg" })` on a fresh cache. -/
theorem claim_C10_declaration_paths_equivalent_witness :
    nvaStyled utilsPx cfgScenario CacheState.empty
        (some [("size", some (SVal.str "lg"))]) =
      computeStyles cfgScenario CacheState.empty
        (some [("size", some (SVal.str "lg"))]) :=
  claim_C10_declaration_paths_equivalent utilsPx cfgScenario (by decide)
    CacheState.empty (some [("size", some (SVal.str "lg"))])


end NV
